import Mathlib

/-!
Verification of the line-rewriting utility `fix_backend_prints.py`.

The script scans a directory for `.rs` files and rewrites lines that look
like orphaned string-literal statements into `ic_cdk::println!(...)` calls.
We embed the pure text transformation (`fix_missing_println`, lines 22-76 of
the source) over `List Char` lines, model the per-file exception handling
(lines 8-89) with `Except`, and model the directory walk of `main`
(lines 91-108).

Python strings are embedded as `List Char`; Python's `str.strip()` /
`rstrip()` whitespace set is the ASCII whitespace characters (the regex
`\s` and `str.strip` also cover some exotic Unicode spaces, which never
occur in the claims and are not modelled).
-/

/-- A line of text, as produced by `content.split('\n')`. -/
abbrev Line := List Char

/-- The ASCII whitespace characters recognised by Python's `str.strip()`
and the regex class `\s`. -/
def pyIsSpace (c : Char) : Bool :=
  c = ' ' || c = '\t' || c = '\n' || c = '\r' || c = '\x0b' || c = '\x0c'

/-- Python `s.lstrip()`. -/
def pyLstrip (l : Line) : Line := l.dropWhile pyIsSpace

/-- Python `s.rstrip()`. -/
def pyRstrip (l : Line) : Line := (l.reverse.dropWhile pyIsSpace).reverse

/-- Python `s.strip()`. -/
def pyStrip (l : Line) : Line := pyRstrip (pyLstrip l)

/-- Python s.rstrip with argument comma: removes every trailing comma. -/
def pyRstripComma (l : Line) : Line := (l.reverse.dropWhile (· = ',')).reverse

/-- Python `s.startswith(p)`. -/
def startsWithL (p l : Line) : Bool := p.isPrefixOf l

/-- Python `s.endswith(p)`. -/
def endsWithL (p l : Line) : Bool := p.reverse.isPrefixOf l.reverse

/-- Python `p in s` (contiguous-substring containment). -/
def hasInfix (pat : Line) : Line → Bool
  | [] => pat.isEmpty
  | c :: rest => pat.isPrefixOf (c :: rest) || hasInfix pat rest

/-- The macro token `ic_cdk::println!` tested on line 30 of the source. -/
def macroToken : Line := "ic_cdk::println!".toList

/-- The text `ic_cdk::println!(` prepended during reconstruction. -/
def macroOpen : Line := "ic_cdk::println!(".toList

/-- The regex test of line 29 (re.match with pattern: caret, one-or-more
whitespace, double quote): at least one leading whitespace character, and
the first non-whitespace character is a double quote. -/
def startsWsQuote : Line → Bool
  | [] => false
  | c :: rest => pyIsSpace c && ((rest.dropWhile pyIsSpace).head? == some '"')

/-- The candidate-start classification of lines 29-37 of the source:
leading whitespace then a quote, and none of the exclusion substrings. -/
def isCandidate (l : Line) : Bool :=
  startsWsQuote l &&
  !hasInfix macroToken l &&
  !hasInfix "return ".toList l &&
  !hasInfix "format!".toList l &&
  !hasInfix "panic!".toList l &&
  !hasInfix "assert!".toList l &&
  !hasInfix "= \"".toList l &&
  !hasInfix "let ".toList l &&
  !hasInfix "const ".toList l

/-- The continuation test of lines 42-43: the stripped line ends with a
comma, or ends with `);` and does not start with `)`. -/
def isCont (l : Line) : Bool :=
  endsWithL [','] (pyStrip l) ||
  (endsWithL [')', ';'] (pyStrip l) && !startsWithL [')'] (pyStrip l))

/-- The indentation extraction of line 48 (re.match with pattern: caret,
captured zero-or-more whitespace): the leading-whitespace run of the line. -/
def indent (l : Line) : Line := l.takeWhile pyIsSpace

/-- Single-line reconstruction (lines 64-71): strip a trailing semicolon
from the stripped content and wrap in `ic_cdk::println!(...);`. -/
def singleFix (l : Line) : Line :=
  let qc := pyStrip l
  let qc2 := if endsWithL [';'] qc then qc.dropLast else qc
  indent l ++ macroOpen ++ qc2 ++ [')', ';']

/-- Rewriting of the last continuation line (lines 58-62): keep it if it
already ends with `);`, otherwise strip trailing whitespace and commas and
append `);`. -/
def lastFix (last : Line) : Line :=
  if endsWithL [')', ';'] (pyStrip last) then last
  else pyRstripComma (pyRstrip last) ++ [')', ';']

/-- One iteration step of the scan loop of lines 22-74, with an explicit
iteration bound: classify the line at the scan position, consume
continuation lines after a candidate, and reconstruct. Every iteration of
the while loop consumes at least one line, so `ls.length` iterations always
suffice; `fixLinesFuel_eq` below makes this precise, and the lemmas
`fixLines_cons_unrelated`, `fixLines_cons_single` and `fixLines_cons_multi`
state the exact per-iteration semantics of the loop. -/
def fixLinesFuel : Nat → List Line → List Line
  | 0, _ => []
  | fuel + 1, ls =>
    match ls with
    | [] => []
    | line :: rest =>
      if isCandidate line then
        let conts := rest.takeWhile isCont
        if conts = [] then
          singleFix line :: fixLinesFuel fuel rest
        else
          (indent line ++ macroOpen ++ pyStrip line)
            :: (conts.dropLast ++ (lastFix (conts.getLastD [])
                  :: fixLinesFuel fuel (rest.dropWhile isCont)))
      else
        line :: fixLinesFuel fuel rest

/-- The scan loop of lines 22-74 on the full list of lines. -/
def fixLines (ls : List Line) : List Line := fixLinesFuel ls.length ls

/-- Python content.split on the newline character (line 18). -/
def splitOnNl : List Char → List Line
  | [] => [[]]
  | c :: rest =>
    if c = '\n' then [] :: splitOnNl rest
    else
      match splitOnNl rest with
      | [] => [[c]]
      | l :: ls => (c :: l) :: ls

/-- Python join of the lines with the newline character (line 76). -/
def joinNl : List Line → List Char
  | [] => []
  | [l] => l
  | l :: l2 :: ls => l ++ '\n' :: joinNl (l2 :: ls)

/-- The full pure transformation of `fix_missing_println` (lines 16-76):
split the content into lines, run the scan, and re-join. -/
def fixContent (content : List Char) : List Char :=
  joinNl (fixLines (splitOnNl content))

/-- Whether `fix_missing_println` writes the file back and reports it as
fixed (lines 79-85): exactly when the reconstructed text differs. -/
def fixReports (content : List Char) : Bool :=
  fixContent content != content

/-- Inputs whose candidate blocks all consume zero continuation lines:
every line that is classified candidate-start has an empty look-ahead. -/
def singleOnly : List Line → Bool
  | [] => true
  | l :: rest => (!isCandidate l || (rest.takeWhile isCont).isEmpty) && singleOnly rest

/-- The scan-index update of one iteration of the while loop (lines 22-74):
from index `i`, an unrelated line and a candidate without continuations
advance to `i + 1` (lines 71, 74); a candidate with continuations advances
to `j = i + 1 + number of consumed continuation lines` (lines 41-45, 63). -/
def advance (lines : List Line) (i : Nat) : Nat :=
  match lines.drop i with
  | [] => i + 1
  | l :: rest => if isCandidate l then i + 1 + (rest.takeWhile isCont).length else i + 1

/-- Result of `fix_missing_println` on one file: the file was rewritten and
reported fixed, left unchanged, or an exception was caught and reported. -/
inductive FileOutcome
  | fixedFile
  | unchangedFile
  | errorReported (msg : List Char)
deriving DecidableEq

/-- One file as seen by `fix_missing_println`: its path, the result of the
`open`/`read` call (lines 9-10), and the result of the `open`/`write` call
(lines 80-81); each fallible call either raises (an) error (message) or
succeeds. -/
structure FileJob where
  path : List Char
  readRes : Except (List Char) (List Char)
  writeRes : Except (List Char) Unit

/-- The console line `Error processing <path>: <msg>` of line 88. -/
def errMsg (path msg : List Char) : List Char :=
  "Error processing ".toList ++ path ++ ": ".toList ++ msg

/-- The console line `Fixed: <path>` of line 82. -/
def fixedMsg (path : List Char) : List Char := "Fixed: ".toList ++ path

/-- The error, if any, raised inside the try block of
`fix_missing_println` for a given job: the read error, or — when the
rewritten content differs and a write is attempted — the write error. -/
def jobError (j : FileJob) : Option (List Char) :=
  match j.readRes with
  | .error e => some e
  | .ok content =>
    if fixContent content = content then none
    else
      match j.writeRes with
      | .error e => some e
      | .ok _ => none

/-- The function fix_missing_println (lines 6-89) over the file model:
read, rewrite,
write back only on change; any raised error is caught by the
`except` handler (lines 87-89), which prints the error line and returns
False. Result: the outcome, the console line printed (if any), and the
Boolean return value. -/
def processJob (j : FileJob) : FileOutcome × Option (List Char) × Bool :=
  match j.readRes with
  | .error e => (.errorReported e, some (errMsg j.path e), false)
  | .ok content =>
    if fixContent content = content then (.unchangedFile, none, false)
    else
      match j.writeRes with
      | .error e => (.errorReported e, some (errMsg j.path e), false)
      | .ok _ => (.fixedFile, some (fixedMsg j.path), true)

/-- The counting loop of `main` (lines 103-106): process every job in
order, adding one for each job whose `fix_missing_println` returned True. -/
def fixedCount (files : List FileJob) : Nat :=
  files.foldl (fun acc j => if (processJob j).2.2 then acc + 1 else acc) 0

/-- The filesystem as seen by `main`: whether the hardcoded root directory
exists and is readable, and the `(path, content)` entries the walk would
enumerate beneath it. -/
structure WalkFS where
  rootPresent : Bool
  entries : List (List Char × List Char)

/-- Modelled from the documented CPython semantics of `os.walk` as called
on line 96 with the default `onerror=None`: errors raised by the underlying
`scandir` call (a nonexistent or unreadable root included) are ignored and
the affected directory yields nothing, so a missing root produces an empty
walk rather than an exception. -/
def osWalkFiles (fs : WalkFS) : List (List Char × List Char) :=
  if fs.rootPresent then fs.entries else []

/-- The entry point `main` (lines 91-108) over the filesystem model:
collect the `.rs` files from the walk (lines 95-99), process each (reads
succeed with the stored content), and return `(files found, files fixed)`.
The `Except` type exposes whether any error propagates out of `main`. -/
def mainRun (fs : WalkFS) : Except (List Char) (Nat × Nat) :=
  let rustFiles := (osWalkFiles fs).filter (fun f => endsWithL ".rs".toList f.1)
  Except.ok (rustFiles.length,
    rustFiles.foldl (fun acc f => if fixReports f.2 then acc + 1 else acc) 0)

/-! ### Basic lemmas about the embedded string operations -/

theorem hasInfix_of_isPrefix {pat l : Line} (h : pat <+: l) : hasInfix pat l = true := by
  cases l with
  | nil =>
    rw [List.prefix_nil] at h
    simp [hasInfix, h]
  | cons c rest =>
    simp only [hasInfix, Bool.or_eq_true]
    exact Or.inl (List.isPrefixOf_iff_prefix.mpr h)

theorem hasInfix_cons {pat l : Line} (c : Char) (h : hasInfix pat l = true) :
    hasInfix pat (c :: l) = true := by
  simp [hasInfix, h]

theorem hasInfix_of_isInfix {pat l : Line} (h : pat <:+: l) : hasInfix pat l = true := by
  obtain ⟨s, t, rfl⟩ := h
  induction s with
  | nil => exact hasInfix_of_isPrefix ⟨t, rfl⟩
  | cons c s ih => exact hasInfix_cons c ih

theorem hasInfix_macroOpen_shape (a b : Line) :
    hasInfix macroToken (a ++ (macroOpen ++ b)) = true := by
  apply hasInfix_of_isInfix
  refine ⟨a, '(' :: b, ?_⟩
  simp [macroOpen, macroToken, String.toList]

/-! ### Unfolding lemmas for the scan loop -/

theorem fixLinesFuel_cons (fuel : Nat) (line : Line) (rest : List Line) :
    fixLinesFuel (fuel + 1) (line :: rest) =
      if isCandidate line then
        if rest.takeWhile isCont = [] then
          singleFix line :: fixLinesFuel fuel rest
        else
          (indent line ++ macroOpen ++ pyStrip line)
            :: ((rest.takeWhile isCont).dropLast
                ++ (lastFix ((rest.takeWhile isCont).getLastD [])
                      :: fixLinesFuel fuel (rest.dropWhile isCont)))
      else line :: fixLinesFuel fuel rest := rfl

theorem fixLinesFuel_eq : ∀ (fuel : Nat) (ls : List Line), ls.length ≤ fuel →
    fixLinesFuel fuel ls = fixLines ls
  | 0, ls, h => by
    have h0 : ls = [] := List.length_eq_zero.mp (Nat.le_zero.mp h)
    subst h0
    rfl
  | fuel + 1, [], _ => rfl
  | fuel + 1, line :: rest, h => by
    have hr : rest.length ≤ fuel := by
      simp only [List.length_cons] at h
      omega
    have hd : (rest.dropWhile isCont).length ≤ rest.length :=
      (List.dropWhile_sublist _).length_le
    show fixLinesFuel (fuel + 1) (line :: rest)
        = fixLinesFuel (rest.length + 1) (line :: rest)
    rw [fixLinesFuel_cons, fixLinesFuel_cons,
      fixLinesFuel_eq fuel rest hr,
      fixLinesFuel_eq fuel (rest.dropWhile isCont) (Nat.le_trans hd hr),
      fixLinesFuel_eq rest.length rest (Nat.le_refl _),
      fixLinesFuel_eq rest.length (rest.dropWhile isCont) hd]
termination_by fuel _ _ => fuel
decreasing_by
  all_goals omega

theorem fixLines_cons_eq (line : Line) (rest : List Line) :
    fixLines (line :: rest) =
      if isCandidate line then
        if rest.takeWhile isCont = [] then
          singleFix line :: fixLines rest
        else
          (indent line ++ macroOpen ++ pyStrip line)
            :: ((rest.takeWhile isCont).dropLast
                ++ (lastFix ((rest.takeWhile isCont).getLastD [])
                      :: fixLines (rest.dropWhile isCont)))
      else line :: fixLines rest := by
  show fixLinesFuel (rest.length + 1) (line :: rest) = _
  rw [fixLinesFuel_cons,
    fixLinesFuel_eq rest.length rest (Nat.le_refl _),
    fixLinesFuel_eq rest.length (rest.dropWhile isCont)
      (List.dropWhile_sublist _).length_le]

theorem fixLines_nil : fixLines [] = [] := rfl

theorem fixLines_cons_unrelated {l : Line} (rest : List Line)
    (h : isCandidate l = false) : fixLines (l :: rest) = l :: fixLines rest := by
  rw [fixLines_cons_eq]
  simp [h]

theorem fixLines_cons_single {l : Line} (rest : List Line)
    (hc : isCandidate l = true) (hn : rest.takeWhile isCont = []) :
    fixLines (l :: rest) = singleFix l :: fixLines rest := by
  rw [fixLines_cons_eq]
  simp [hc, hn]

theorem fixLines_cons_multi {l : Line} (rest : List Line)
    (hc : isCandidate l = true) (hn : rest.takeWhile isCont ≠ []) :
    fixLines (l :: rest) =
      (indent l ++ macroOpen ++ pyStrip l)
        :: ((rest.takeWhile isCont).dropLast
            ++ (lastFix ((rest.takeWhile isCont).getLastD [])
                  :: fixLines (rest.dropWhile isCont))) := by
  rw [fixLines_cons_eq]
  simp [hc, hn]

/-! ### Classification lemmas -/

theorem isCandidate_eq_false_of_hasInfix_macro {l : Line}
    (h : hasInfix macroToken l = true) : isCandidate l = false := by
  simp [isCandidate, h]

theorem isCandidate_singleFix (l : Line) : isCandidate (singleFix l) = false := by
  apply isCandidate_eq_false_of_hasInfix_macro
  show hasInfix macroToken (indent l ++ macroOpen ++ _ ++ [')', ';']) = true
  rw [List.append_assoc, List.append_assoc]
  exact hasInfix_macroOpen_shape _ _

theorem isCandidate_multiHead (l : Line) :
    isCandidate (indent l ++ macroOpen ++ pyStrip l) = false := by
  apply isCandidate_eq_false_of_hasInfix_macro
  rw [List.append_assoc]
  exact hasInfix_macroOpen_shape _ _

theorem fixLines_eq_self_of_no_candidate :
    ∀ {ls : List Line}, (∀ l ∈ ls, isCandidate l = false) → fixLines ls = ls
  | [], _ => fixLines_nil
  | l :: rest, h => by
    rw [fixLines_cons_unrelated rest (h l (List.mem_cons_self l rest))]
    rw [fixLines_eq_self_of_no_candidate fun x hx => h x (List.mem_cons_of_mem l hx)]

theorem fixLines_ne_nil : ∀ {ls : List Line}, ls ≠ [] → fixLines ls ≠ []
  | [], h => absurd rfl h
  | l :: rest, _ => by
    cases hc : isCandidate l with
    | false => rw [fixLines_cons_unrelated rest hc]; simp
    | true =>
      cases hn : rest.takeWhile isCont with
      | nil => rw [fixLines_cons_single rest hc hn]; simp
      | cons c cs => rw [fixLines_cons_multi rest hc (by simp [hn])]; simp

/-! ### Lemmas about stripping and the ends of lines -/

theorem dropWhile_append_last {p : Char → Bool} {c : Char} (hc : p c = false) :
    ∀ xs : Line, List.dropWhile p (xs ++ [c]) = List.dropWhile p xs ++ [c]
  | [] => by simp [List.dropWhile, hc]
  | x :: xs => by
    by_cases hx : p x
    · simp only [List.cons_append, List.dropWhile_cons, hx, if_true]
      exact dropWhile_append_last hc xs
    · simp [List.dropWhile_cons, hx]

theorem pyRstrip_cons {x : Char} (hx : pyIsSpace x = false) (xs : Line) :
    pyRstrip (x :: xs) = x :: pyRstrip xs := by
  unfold pyRstrip
  rw [List.reverse_cons, dropWhile_append_last hx, List.reverse_append]
  simp

theorem pyStrip_head_of_startsWsQuote {l : Line} (h : startsWsQuote l = true) :
    (pyStrip l).head? = some '"' := by
  cases l with
  | nil => simp [startsWsQuote] at h
  | cons c r =>
    simp only [startsWsQuote, Bool.and_eq_true, beq_iff_eq] at h
    obtain ⟨hws, hq⟩ := h
    unfold pyStrip pyLstrip
    rw [List.dropWhile_cons, if_pos hws]
    cases hr : r.dropWhile pyIsSpace with
    | nil => rw [hr] at hq; simp at hq
    | cons a t =>
      rw [hr] at hq
      simp only [List.head?_cons, Option.some.injEq] at hq
      subst hq
      rw [pyRstrip_cons (by decide)]
      simp

theorem head_eq_paren_of_startsWith {s : Line} (h : startsWithL [')'] s = true) :
    s.head? = some ')' := by
  cases s with
  | nil => simp [startsWithL, List.isPrefixOf] at h
  | cons a t =>
    simp only [startsWithL, List.isPrefixOf, Bool.and_eq_true, beq_iff_eq] at h
    simp [h.1.symm]

theorem endsWith_comma_not_parenSemi {s : Line}
    (h : endsWithL [','] s = true) : endsWithL [')', ';'] s = false := by
  unfold endsWithL at h ⊢
  cases hs : s.reverse with
  | nil => rw [hs] at h; simp [List.isPrefixOf] at h
  | cons a t =>
    rw [hs] at h
    simp only [List.reverse_cons, List.reverse_nil, List.nil_append,
      List.isPrefixOf, Bool.and_eq_true, beq_iff_eq] at h
    simp [List.isPrefixOf, ← h.1]

/-! ### Splitting into lines and joining them back -/

theorem splitOnNl_ne_nil : ∀ c : List Char, splitOnNl c ≠ []
  | [] => by simp [splitOnNl]
  | c :: rest => by
    unfold splitOnNl
    by_cases h : c = '\n'
    · simp [h]
    · simp only [h, if_false]
      cases hs : splitOnNl rest <;> simp

theorem splitOnNl_cons_ne {c : Char} (hc : c ≠ '\n') (rest : List Char) :
    splitOnNl (c :: rest) =
      (c :: (splitOnNl rest).headI) :: (splitOnNl rest).tail := by
  cases hs : splitOnNl rest with
  | nil => exact absurd hs (splitOnNl_ne_nil rest)
  | cons l ls =>
    conv_lhs => rw [splitOnNl]
    rw [if_neg hc, hs]
    rfl

theorem joinNl_cons_of_ne_nil {l : Line} {ls : List Line} (h : ls ≠ []) :
    joinNl (l :: ls) = l ++ '\n' :: joinNl ls := by
  cases ls with
  | nil => exact absurd rfl h
  | cons l2 ls2 => rfl

theorem joinNl_splitOnNl : ∀ c : List Char, joinNl (splitOnNl c) = c
  | [] => rfl
  | c :: rest => by
    unfold splitOnNl
    by_cases h : c = '\n'
    · subst h
      rw [if_pos rfl, joinNl_cons_of_ne_nil (splitOnNl_ne_nil rest),
        joinNl_splitOnNl rest]
      rfl
    · rw [if_neg h]
      cases hs : splitOnNl rest with
      | nil => exact absurd hs (splitOnNl_ne_nil rest)
      | cons l ls =>
        have hj : joinNl (l :: ls) = rest := by
          rw [← hs, joinNl_splitOnNl rest]
        cases ls with
        | nil =>
          show c :: l = c :: rest
          rw [show l = rest from hj]
        | cons l2 ls2 =>
          show (c :: l) ++ '\n' :: joinNl (l2 :: ls2) = c :: rest
          rw [← hj]
          rfl

theorem splitOnNl_mem_no_nl : ∀ (c : List Char), ∀ l ∈ splitOnNl c, '\n' ∉ l
  | [] => by simp [splitOnNl]
  | c :: rest => by
    have ih := splitOnNl_mem_no_nl rest
    unfold splitOnNl
    by_cases h : c = '\n'
    · simp only [h, if_true]
      intro l hl
      rcases List.mem_cons.mp hl with rfl | hl
      · simp
      · exact ih l hl
    · simp only [h, if_false]
      cases hs : splitOnNl rest with
      | nil => exact absurd hs (splitOnNl_ne_nil rest)
      | cons a as =>
        intro l hl
        rcases List.mem_cons.mp hl with rfl | hl
        · intro hm
          rcases List.mem_cons.mp hm with hc | hm
          · exact h hc.symm
          · exact ih a (hs ▸ List.mem_cons_self a as) hm
        · exact ih l (hs ▸ List.mem_cons_of_mem a hl)

theorem splitOnNl_of_no_nl : ∀ {l : List Char}, '\n' ∉ l → splitOnNl l = [l]
  | [], _ => rfl
  | c :: rest, h => by
    have hc : c ≠ '\n' := fun e => h (e ▸ List.mem_cons_self c rest)
    have hr := splitOnNl_of_no_nl (fun m => h (List.mem_cons_of_mem c m))
    unfold splitOnNl
    rw [if_neg (fun e => hc e), hr]

theorem splitOnNl_append_nl {a : List Char} (ha : '\n' ∉ a) (rest : List Char) :
    splitOnNl (a ++ '\n' :: rest) = a :: splitOnNl rest := by
  induction a with
  | nil => simp [splitOnNl]
  | cons c a ih =>
    have hc : c ≠ '\n' := fun e => ha (e ▸ List.mem_cons_self c a)
    have ih2 := ih (fun m => ha (List.mem_cons_of_mem c m))
    show splitOnNl (c :: (a ++ '\n' :: rest)) = (c :: a) :: splitOnNl rest
    rw [splitOnNl_cons_ne hc, ih2]
    simp

theorem splitOnNl_joinNl : ∀ {ls : List Line}, ls ≠ [] → (∀ l ∈ ls, '\n' ∉ l) →
    splitOnNl (joinNl ls) = ls
  | [], hne, _ => absurd rfl hne
  | [l], _, h => by
    show splitOnNl l = [l]
    exact splitOnNl_of_no_nl (h l (List.mem_cons_self l []))
  | l :: l2 :: ls, _, h => by
    show splitOnNl (l ++ '\n' :: joinNl (l2 :: ls)) = l :: l2 :: ls
    rw [splitOnNl_append_nl (h l (List.mem_cons_self l _))]
    rw [splitOnNl_joinNl (by simp) (fun x hx => h x (List.mem_cons_of_mem l hx))]

/-! ### Newline-freeness of rewritten lines -/

theorem mem_of_mem_pyLstrip {a : Char} {l : Line} (h : a ∈ pyLstrip l) : a ∈ l :=
  List.Sublist.mem h (List.dropWhile_sublist pyIsSpace)

theorem mem_of_mem_pyRstrip {a : Char} {l : Line} (h : a ∈ pyRstrip l) : a ∈ l := by
  unfold pyRstrip at h
  rw [List.mem_reverse] at h
  exact List.mem_reverse.mp (List.Sublist.mem h (List.dropWhile_sublist pyIsSpace))

theorem mem_of_mem_pyStrip {a : Char} {l : Line} (h : a ∈ pyStrip l) : a ∈ l :=
  mem_of_mem_pyLstrip (mem_of_mem_pyRstrip h)

theorem mem_of_mem_indent {a : Char} {l : Line} (h : a ∈ indent l) : a ∈ l :=
  List.Sublist.mem h (List.takeWhile_sublist pyIsSpace)

theorem nl_not_mem_singleFix {l : Line} (h : '\n' ∉ l) : '\n' ∉ singleFix l := by
  intro hm
  simp only [singleFix, List.mem_append] at hm
  rcases hm with ((h1 | h2) | h3) | h4
  · exact h (mem_of_mem_indent h1)
  · revert h2
    decide
  · by_cases he : endsWithL [';'] (pyStrip l) = true
    · rw [if_pos he] at h3
      exact h (mem_of_mem_pyStrip
        (List.Sublist.mem h3 (List.dropLast_sublist (pyStrip l))))
    · rw [if_neg he] at h3
      exact h (mem_of_mem_pyStrip h3)
  · revert h4
    decide

/-! ### Idempotence of the scan over single-line-only inputs -/

theorem singleOnly_cons_iff {l : Line} {rest : List Line} :
    singleOnly (l :: rest) = true ↔
      (isCandidate l = true → rest.takeWhile isCont = []) ∧ singleOnly rest = true := by
  rw [singleOnly]
  simp only [Bool.and_eq_true, Bool.or_eq_true, Bool.not_eq_true', List.isEmpty_iff]
  constructor
  · rintro ⟨h1 | h1, h2⟩
    · exact ⟨fun hc => absurd hc (by simp [h1]), h2⟩
    · exact ⟨fun _ => h1, h2⟩
  · rintro ⟨h1, h2⟩
    refine ⟨?_, h2⟩
    cases hc : isCandidate l with
    | false => exact Or.inl rfl
    | true => exact Or.inr (h1 hc)

theorem fixLines_mem_no_nl_of_singleOnly :
    ∀ {ls : List Line}, singleOnly ls = true → (∀ l ∈ ls, '\n' ∉ l) →
      ∀ x ∈ fixLines ls, '\n' ∉ x
  | [], _, _ => by simp [fixLines_nil]
  | l :: rest, hs, h => by
    obtain ⟨h1, h2⟩ := singleOnly_cons_iff.mp hs
    have ih := fixLines_mem_no_nl_of_singleOnly h2
      (fun x hx => h x (List.mem_cons_of_mem l hx))
    cases hc : isCandidate l with
    | false =>
      rw [fixLines_cons_unrelated rest hc]
      intro x hx
      rcases List.mem_cons.mp hx with rfl | hx
      · exact h x (List.mem_cons_self x rest)
      · exact ih x hx
    | true =>
      rw [fixLines_cons_single rest hc (h1 hc)]
      intro x hx
      rcases List.mem_cons.mp hx with rfl | hx
      · exact nl_not_mem_singleFix (h l (List.mem_cons_self l rest))
      · exact ih x hx

theorem fixLines_idem_of_singleOnly :
    ∀ {ls : List Line}, singleOnly ls = true → fixLines (fixLines ls) = fixLines ls
  | [], _ => by rw [fixLines_nil, fixLines_nil]
  | l :: rest, hs => by
    obtain ⟨h1, h2⟩ := singleOnly_cons_iff.mp hs
    have ih := fixLines_idem_of_singleOnly h2
    cases hc : isCandidate l with
    | false =>
      rw [fixLines_cons_unrelated rest hc, fixLines_cons_unrelated _ hc, ih]
    | true =>
      rw [fixLines_cons_single rest hc (h1 hc),
        fixLines_cons_unrelated _ (isCandidate_singleFix l), ih]

/-! ## The claims -/

/-- C9: the scan of fix_missing_println terminates on every finite list of
lines because each iteration of the while loop strictly increases the scan
index: `advance lines i`, the index after one iteration at position `i`,
always exceeds `i` (by one for unrelated lines and single-line candidates,
and past all consumed continuation lines for multi-line candidates). -/
theorem scan_index_strictly_increases (lines : List Line) (i : Nat) :
    i < advance lines i := by
  unfold advance
  rcases lines.drop i with _ | ⟨l, rest⟩
  · dsimp only
    omega
  · dsimp only
    split <;> omega

/-- C10: a line whose first character is a double quote at column 0 (no
leading whitespace) is never classified candidate-start — classification
requires at least one leading whitespace character before the quote — and
when the scan examines such a line it is passed through unchanged. -/
theorem column_zero_quote_not_candidate (l : Line) (rest : List Line)
    (h : l.head? = some '"') :
    isCandidate l = false ∧ fixLines (l :: rest) = l :: fixLines rest := by
  have hq : startsWsQuote l = false := by
    cases l with
    | nil => rfl
    | cons c r =>
      simp only [List.head?_cons, Option.some.injEq] at h
      subst h
      have hws : pyIsSpace '"' = false := by decide
      simp [startsWsQuote, hws]
  have hc : isCandidate l = false := by simp [isCandidate, hq]
  exact ⟨hc, fixLines_cons_unrelated rest hc⟩

/-- Witness for C10 at the concrete line consisting of a quoted string
with no leading whitespace. -/
theorem column_zero_quote_not_candidate_witness :
    ("\"x\"".toList : Line).head? = some '"' ∧
      isCandidate ("\"x\"".toList : Line) = false ∧
      fixLines ["\"x\"".toList] = ["\"x\"".toList] := by
  have h := column_zero_quote_not_candidate "\"x\"".toList [] (by decide)
  exact ⟨by decide, h.1, by rw [h.2, fixLines_nil]⟩

/-- C4: the single line of four spaces and `"hello";` rewrites to four
spaces and `ic_cdk::println!("hello");`; in general, a candidate line with
no continuation lines is rewritten to its indentation, the macro-call
opener, its stripped content with a trailing semicolon removed, and a
closing parenthesis plus semicolon. -/
theorem single_line_reconstruction :
    fixContent "    \"hello\";".toList = "    ic_cdk::println!(\"hello\");".toList ∧
    ∀ (l : Line) (rest : List Line), isCandidate l = true →
      rest.takeWhile isCont = [] →
      fixLines (l :: rest) =
        (indent l ++ macroOpen ++
          (if endsWithL [';'] (pyStrip l) then (pyStrip l).dropLast else pyStrip l)
            ++ [')', ';']) :: fixLines rest := by
  refine ⟨by decide, ?_⟩
  intro l rest hc hn
  rw [fixLines_cons_single rest hc hn]
  rfl

/-- Witness for C4 at the concrete one-line file. -/
theorem single_line_reconstruction_witness :
    isCandidate "    \"hello\";".toList = true ∧
      fixLines ["    \"hello\";".toList]
        = ["    ic_cdk::println!(\"hello\");".toList] := by
  refine ⟨by decide, ?_⟩
  rw [single_line_reconstruction.2 "    \"hello\";".toList [] (by decide) rfl]
  decide

/-- C7: on a file none of whose lines is classified candidate-start, the
reconstructed text is byte-identical to the original, no write occurs and
the file is not reported fixed; and in general the write-and-report
happens exactly when the reconstructed text differs from the original. -/
theorem no_candidate_noop :
    (∀ content : List Char, (∀ l ∈ splitOnNl content, isCandidate l = false) →
      fixContent content = content ∧ fixReports content = false) ∧
    ∀ content : List Char, fixReports content = true ↔ fixContent content ≠ content := by
  constructor
  · intro content h
    have hfix : fixContent content = content := by
      unfold fixContent
      rw [fixLines_eq_self_of_no_candidate h, joinNl_splitOnNl content]
    refine ⟨hfix, ?_⟩
    unfold fixReports
    rw [hfix]
    simp
  · intro content
    unfold fixReports
    simp [bne_iff_ne]

/-- Witness for C7 at a concrete two-line file with no quote-prefixed
line. -/
theorem no_candidate_noop_witness :
    (∀ l ∈ splitOnNl "fn main\nlet x = 1;\n".toList, isCandidate l = false) ∧
      fixContent "fn main\nlet x = 1;\n".toList = "fn main\nlet x = 1;\n".toList ∧
      fixReports "fn main\nlet x = 1;\n".toList = false := by
  have h := no_candidate_noop.1 "fn main\nlet x = 1;\n".toList (by decide)
  exact ⟨by decide, h.1, h.2⟩

/-- C5 counterexample: the line of four spaces and `let x = "y",` contains
the assignment exclusion substring, yet when it follows the candidate line
of four spaces and `"a",` it is consumed as the last continuation line and
rewritten — its trailing comma becomes a closing parenthesis and semicolon
— so it is not passed through to the output verbatim. -/
theorem excluded_line_rewritten_cex :
    hasInfix "= \"".toList "    let x = \"y\",".toList = true ∧
    fixLines ["    \"a\",".toList, "    let x = \"y\",".toList]
      = ["    ic_cdk::println!(\"a\",".toList, "    let x = \"y\");".toList] ∧
    "    let x = \"y\",".toList ∉
      fixLines ["    \"a\",".toList, "    let x = \"y\",".toList] :=
  ⟨by decide, by decide, by decide⟩

/-- C5 amended: a line containing the macro token or any of the exclusion
substrings is classified unrelated when the scan examines it, and is then
passed through verbatim; it can however still be consumed as a
continuation line of a preceding candidate block and, as the last
continuation line, have its trailing comma replaced (see the
counterexample). -/
theorem excluded_line_unrelated_at_scan (l : Line) (rest : List Line)
    (h : hasInfix macroToken l = true ∨ hasInfix "return ".toList l = true ∨
      hasInfix "format!".toList l = true ∨ hasInfix "panic!".toList l = true ∨
      hasInfix "assert!".toList l = true ∨ hasInfix "= \"".toList l = true ∨
      hasInfix "let ".toList l = true ∨ hasInfix "const ".toList l = true) :
    isCandidate l = false ∧ fixLines (l :: rest) = l :: fixLines rest := by
  have hc : isCandidate l = false := by
    rcases h with h | h | h | h | h | h | h | h <;>
      simp only [isCandidate, h, Bool.not_true, Bool.and_false, Bool.false_and]
  exact ⟨hc, fixLines_cons_unrelated rest hc⟩

/-- Witness for C5 at a concrete line already containing the macro
token. -/
theorem excluded_line_unrelated_at_scan_witness :
    hasInfix macroToken "    ic_cdk::println!(\"ok\");".toList = true ∧
      isCandidate "    ic_cdk::println!(\"ok\");".toList = false ∧
      fixLines ["    ic_cdk::println!(\"ok\");".toList]
        = ["    ic_cdk::println!(\"ok\");".toList] := by
  have h := excluded_line_unrelated_at_scan "    ic_cdk::println!(\"ok\");".toList []
    (Or.inl (by decide))
  exact ⟨by decide, h.1, by rw [h.2, fixLines_nil]⟩

/-- C6: starting after a candidate-start, a line is consumed as a
continuation exactly when `isCont` holds of it (its stripped text ends
with a comma, or ends with a closing parenthesis and semicolon and does
not start with a closing parenthesis); the scan has no bound other than
the end of the list, so when every following line satisfies it the whole
remainder of the file is consumed into the single reconstructed block. -/
theorem continuation_scan_consumes_to_eof (l0 r : Line) (rs : List Line)
    (hc : isCandidate l0 = true) (hall : ∀ l ∈ r :: rs, isCont l = true) :
    (r :: rs).takeWhile isCont = r :: rs ∧
    fixLines (l0 :: r :: rs) =
      (indent l0 ++ macroOpen ++ pyStrip l0)
        :: ((r :: rs).dropLast ++ [lastFix ((r :: rs).getLastD [])]) := by
  have ht : (r :: rs).takeWhile isCont = r :: rs :=
    List.takeWhile_eq_self_iff.mpr hall
  have hd : (r :: rs).dropWhile isCont = [] :=
    List.dropWhile_eq_nil_iff.mpr hall
  refine ⟨ht, ?_⟩
  rw [fixLines_cons_multi (r :: rs) hc (by rw [ht]; simp), ht, hd, fixLines_nil]

/-- Witness for C6 at a concrete candidate followed by two continuation
lines that run to the end of the file. -/
theorem continuation_scan_consumes_to_eof_witness :
    isCandidate "  \"f\",".toList = true ∧
      (∀ l ∈ ["  a,".toList, "  b,".toList], isCont l = true) ∧
      fixLines ["  \"f\",".toList, "  a,".toList, "  b,".toList]
        = ["  ic_cdk::println!(\"f\",".toList, "  a,".toList, "  b);".toList] := by
  have h := continuation_scan_consumes_to_eof "  \"f\",".toList "  a,".toList
    ["  b,".toList] (by decide) (by decide)
  refine ⟨by decide, by decide, ?_⟩
  rw [h.2]
  decide

/-- C2: a candidate-start line followed by exactly two continuation lines
whose stripped text ends with a comma, and then a line whose stripped text
ends with a closing parenthesis and semicolon but which is not itself
consumed (per the look-ahead test it starts with a closing parenthesis):
the block reconstructs into a single macro call spanning the same three
lines that were consumed — the candidate line prefixed with the macro-call
opener, the first continuation line verbatim, and the final consumed
line with its trailing comma replaced by a closing parenthesis and
semicolon — while the fourth line is passed through unchanged. -/
theorem multi_line_block_reconstruction (l0 c1 c2 c3 : Line) (rest : List Line)
    (hc : isCandidate l0 = true)
    (h1 : endsWithL [','] (pyStrip c1) = true)
    (h2 : endsWithL [','] (pyStrip c2) = true)
    (h3 : endsWithL [')', ';'] (pyStrip c3) = true)
    (hnc : isCont c3 = false) :
    fixLines (l0 :: c1 :: c2 :: c3 :: rest) =
      (indent l0 ++ macroOpen ++ pyStrip l0)
        :: c1 :: (pyRstripComma (pyRstrip c2) ++ [')', ';'])
        :: c3 :: fixLines rest := by
  have hic1 : isCont c1 = true := by simp [isCont, h1]
  have hic2 : isCont c2 = true := by simp [isCont, h2]
  have hstart : startsWithL [')'] (pyStrip c3) = true := by
    simp only [isCont, h3, Bool.true_and, Bool.or_eq_false_iff,
      Bool.not_eq_false'] at hnc
    exact hnc.2
  have hq : startsWsQuote c3 = false := by
    cases hqq : startsWsQuote c3 with
    | false => rfl
    | true =>
      have hh := pyStrip_head_of_startsWsQuote hqq
      rw [head_eq_paren_of_startsWith hstart] at hh
      simp at hh
  have hc3 : isCandidate c3 = false := by
    simp only [isCandidate, hq, Bool.false_and]
  have htw : (c1 :: c2 :: c3 :: rest).takeWhile isCont = [c1, c2] := by
    simp [List.takeWhile_cons, hic1, hic2, hnc]
  have hdw : (c1 :: c2 :: c3 :: rest).dropWhile isCont = c3 :: rest := by
    simp [List.dropWhile_cons, hic1, hic2, hnc]
  have hl : lastFix c2 = pyRstripComma (pyRstrip c2) ++ [')', ';'] := by
    unfold lastFix
    rw [if_neg]
    rw [endsWith_comma_not_parenSemi h2]
    simp
  rw [fixLines_cons_multi _ hc (by rw [htw]; simp), htw, hdw,
    fixLines_cons_unrelated rest hc3]
  simp [hl]

/-- Witness for C2 at a concrete four-line input: a candidate, two
comma-terminated continuation lines, and a closing line that starts with
a closing parenthesis. -/
theorem multi_line_block_reconstruction_witness :
    isCandidate "  \"a\"".toList = true ∧
      endsWithL [','] (pyStrip "  1,".toList) = true ∧
      endsWithL [','] (pyStrip "  2,".toList) = true ∧
      endsWithL [')', ';'] (pyStrip "  );".toList) = true ∧
      isCont "  );".toList = false ∧
      fixLines ["  \"a\"".toList, "  1,".toList, "  2,".toList, "  );".toList]
        = ["  ic_cdk::println!(\"a\"".toList, "  1,".toList, "  2);".toList,
            "  );".toList] := by
  have h := multi_line_block_reconstruction "  \"a\"".toList "  1,".toList
    "  2,".toList "  );".toList [] (by decide) (by decide) (by decide)
    (by decide) (by decide)
  refine ⟨by decide, by decide, by decide, by decide, by decide, ?_⟩
  rw [h]
  decide

/-- C1 counterexample: the pass is not idempotent. On the three-line input
consisting of a candidate line, a comma-terminated continuation line, and
a closing continuation line, the first run emits the consumed continuation
lines verbatim; a second run then reclassifies the emitted quote-prefixed
continuation line as a fresh candidate and rewrites it again, so the
output of the second run differs from that of the first and the second
run reports a fix. -/
theorem pass_not_idempotent_cex :
    fixContent (fixContent "    \"a\",\n    \"b\",\n    x);".toList)
        ≠ fixContent "    \"a\",\n    \"b\",\n    x);".toList ∧
      fixReports (fixContent "    \"a\",\n    \"b\",\n    x);".toList) = true :=
  ⟨by decide, by decide⟩

/-- C1 amended: the pass is idempotent on every input whose candidate
blocks consume no continuation lines (in particular on inputs with no
candidates at all): there, applying the rewrite-and-reconstruct pass of
fix_missing_println twice yields the same text as applying it once, and
the second run reports zero fixes. -/
theorem pass_idempotent_of_singleOnly (content : List Char)
    (hs : singleOnly (splitOnNl content) = true) :
    fixContent (fixContent content) = fixContent content ∧
      fixReports (fixContent content) = false := by
  have hnl := splitOnNl_mem_no_nl content
  have hfl_nl := fixLines_mem_no_nl_of_singleOnly hs hnl
  have hne : fixLines (splitOnNl content) ≠ [] :=
    fixLines_ne_nil (splitOnNl_ne_nil content)
  have key : fixContent (fixContent content) = fixContent content := by
    show joinNl (fixLines (splitOnNl (joinNl (fixLines (splitOnNl content))))) = _
    rw [splitOnNl_joinNl hne hfl_nl, fixLines_idem_of_singleOnly hs]
    rfl
  refine ⟨key, ?_⟩
  unfold fixReports
  rw [key]
  simp

/-- Witness for C1 at a concrete two-line input whose single candidate is
a single-line block (the pass rewrites it on the first run and leaves the
result untouched on the second). -/
theorem pass_idempotent_of_singleOnly_witness :
    singleOnly (splitOnNl "    \"hello\";\nfn main".toList) = true ∧
      fixContent (fixContent "    \"hello\";\nfn main".toList)
        = fixContent "    \"hello\";\nfn main".toList ∧
      fixReports (fixContent "    \"hello\";\nfn main".toList) = false := by
  have h := pass_idempotent_of_singleOnly "    \"hello\";\nfn main".toList (by decide)
  exact ⟨by decide, h.1, h.2⟩

/-- C3 counterexample: with the root directory absent (or unreadable) the
walk of main — os.walk with its default error handling — yields no
entries even when files exist beneath the root path, and main completes
normally with zero files found and zero fixed; no I/O error surfaces to
the caller, contrary to the claim that one does. -/
theorem missing_root_no_error_cex :
    mainRun (WalkFS.mk false [("a.rs".toList, "    \"hello\";".toList)])
      = Except.ok (0, 0) := rfl

/-- C3 amended: if the hardcoded root directory does not exist or is not
readable, os.walk (called with the default onerror of None) silently
yields no entries; main completes normally, reporting zero files found
and zero fixed, and no file is processed — no I/O error is surfaced. -/
theorem missing_root_walk_yields_nothing (fs : WalkFS)
    (h : fs.rootPresent = false) : mainRun fs = Except.ok (0, 0) := by
  unfold mainRun osWalkFiles
  rw [h]
  rfl

/-- Witness for C3 at a concrete filesystem with an absent root. -/
theorem missing_root_walk_yields_nothing_witness :
    (WalkFS.mk false [("b.rs".toList, "x".toList)]).rootPresent = false ∧
      mainRun (WalkFS.mk false [("b.rs".toList, "x".toList)]) = Except.ok (0, 0) :=
  ⟨rfl, missing_root_walk_yields_nothing
    (WalkFS.mk false [("b.rs".toList, "x".toList)]) rfl⟩

theorem fixedCount_shift : ∀ (files : List FileJob) (n : Nat),
    files.foldl (fun acc j => if (processJob j).2.2 then acc + 1 else acc) n
      = n + files.foldl (fun acc j => if (processJob j).2.2 then acc + 1 else acc) 0
  | [], n => by simp
  | j :: files, n => by
    simp only [List.foldl_cons]
    by_cases hj : (processJob j).2.2 = true
    · rw [if_pos hj, if_pos hj, fixedCount_shift files (n + 1), fixedCount_shift files 1]
      omega
    · rw [if_neg hj, if_neg hj]
      exact fixedCount_shift files n

theorem fixedCount_cons (j : FileJob) (files : List FileJob) :
    fixedCount (j :: files)
      = (if (processJob j).2.2 then 1 else 0) + fixedCount files := by
  unfold fixedCount
  simp only [List.foldl_cons]
  by_cases hj : (processJob j).2.2 = true
  · rw [if_pos hj, fixedCount_shift files (0 + 1)]
  · rw [if_neg hj]
    omega

theorem fixedCount_append (a b : List FileJob) :
    fixedCount (a ++ b) = fixedCount a + fixedCount b := by
  induction a with
  | nil =>
    rw [List.nil_append]
    rw [show fixedCount [] = 0 from rfl]
    omega
  | cons j a ih =>
    simp only [List.cons_append]
    rw [fixedCount_cons, fixedCount_cons, ih]
    omega

/-- C8: any error raised inside the try block of fix_missing_println for
one file — while reading or, when the content changed, while writing — is
caught: the outcome is an error report whose console line is
`Error processing <path>: <msg>`, the function returns False, and the
counting loop of main continues: the erroring file contributes nothing to
the fixed count and the surrounding files are processed as if it were
absent. -/
theorem file_error_caught_and_run_continues (j : FileJob) (e : List Char)
    (pre post : List FileJob) (h : jobError j = some e) :
    processJob j = (FileOutcome.errorReported e, some (errMsg j.path e), false) ∧
      fixedCount (pre ++ j :: post) = fixedCount (pre ++ post) := by
  obtain ⟨path, rr, wr⟩ := j
  have hp : processJob (FileJob.mk path rr wr)
      = (FileOutcome.errorReported e, some (errMsg path e), false) := by
    rcases rr with e2 | content
    · have he : e2 = e := by simpa [jobError] using h
      subst he
      rfl
    · by_cases hc : fixContent content = content
      · exact absurd h (by simp [jobError, hc])
      · rcases wr with e2 | u
        · have he : e2 = e := by simpa [jobError, hc] using h
          subst he
          simp [processJob, hc]
        · exact absurd h (by simp [jobError, hc])
  refine ⟨hp, ?_⟩
  rw [fixedCount_append, fixedCount_append, fixedCount_cons, hp]
  simp

/-- Witness for C8: a concrete job whose read raises, placed between two
healthy jobs; the erroring job is reported, returns False, and the fixed
count equals that of the run without it. -/
theorem file_error_caught_and_run_continues_witness :
    jobError (FileJob.mk "a.rs".toList (Except.error "boom".toList) (Except.ok ()))
        = some "boom".toList ∧
      processJob (FileJob.mk "a.rs".toList (Except.error "boom".toList) (Except.ok ()))
        = (FileOutcome.errorReported "boom".toList,
            some (errMsg "a.rs".toList "boom".toList), false) ∧
      fixedCount
          [FileJob.mk "b.rs".toList (Except.ok "    \"hi\";".toList) (Except.ok ()),
            FileJob.mk "a.rs".toList (Except.error "boom".toList) (Except.ok ()),
            FileJob.mk "c.rs".toList (Except.ok "fn main".toList) (Except.ok ())]
        = fixedCount
            [FileJob.mk "b.rs".toList (Except.ok "    \"hi\";".toList) (Except.ok ()),
              FileJob.mk "c.rs".toList (Except.ok "fn main".toList) (Except.ok ())] := by
  have h := file_error_caught_and_run_continues
    (FileJob.mk "a.rs".toList (Except.error "boom".toList) (Except.ok ()))
    "boom".toList
    [FileJob.mk "b.rs".toList (Except.ok "    \"hi\";".toList) (Except.ok ())]
    [FileJob.mk "c.rs".toList (Except.ok "fn main".toList) (Except.ok ())]
    rfl
  exact ⟨rfl, h.1, h.2⟩
